import Mathlib

/-!
# enum_tools.h: a shallow embedding

Model of the header `enum_tools.h` (managed enums, `enum_array`, `enum_member`).

Conventions of the embedding:

* `uint8_t` values are natural numbers reduced modulo `2^8`, `std::size_t` values are natural
  numbers reduced modulo `2^64`, `int` values are integers in `[-2^31, 2^31)`.
* A function that can throw returns `Except Exception _`; a member function that can throw and
  writes to the object returns the outcome together with the state of the object afterwards.
* A value of an `enum class E : uint8_t` is its underlying 8-bit representation.
* A function template whose body makes an unqualified call that only a declaration of the
  including program can resolve returns `Instantiation _`: rejected at build time when lookup
  finds no declaration, built otherwise.
-/

namespace EnumTools

/-! ## Machine integers and exceptions -/

/-- The two exception classes thrown by the header, each with its `what()` text. -/
inductive Exception where
  | out_of_range (what : String)
  | invalid_argument (what : String)
deriving DecidableEq, Repr

/-- Integral conversion to `uint8_t`: reduction modulo `2^8`. -/
def to_uint8 (i : Int) : Nat := (i % 256).toNat

/-- Integral conversion to `std::size_t` (64 bit): reduction modulo `2^64`. -/
def to_size_t (i : Int) : Nat := (i % 18446744073709551616).toNat

/-- The values representable in `int` (32 bit). -/
def is_int (i : Int) : Prop := -2147483648 ≤ i ∧ i ≤ 2147483647

instance (i : Int) : Decidable (is_int i) := by
  unfold is_int; exact inferInstance

/-! ## DEF_ENUM, SETUP_ENUM_LENGTH, SETUP_ENUM_TRAIT -/

/-- An `enum class name : uint8_t { enumerators }` together with what the set-up macros
registered for it: `length` is the value returned by the `enum_size_helper` overload that
`SETUP_ENUM_LENGTH` defines, `managed` tells whether `SETUP_ENUM_TRAIT` defined an
`is_managed_enum_helper` overload for it. -/
structure EnumClass where
  name : String
  enumerators : List String
  length : Nat
  managed : Bool
deriving DecidableEq, Repr

/-- Boost.Preprocessor's `BOOST_PP_VARIADIC_SIZE(...)` (not part of this repository): the number
of comma-separated arguments. Empty variadic data is one (empty) argument. -/
def BOOST_PP_VARIADIC_SIZE (args : List String) : Nat :=
  if args.isEmpty then 1 else args.length

/-- `DEF_ENUM(name, ...)`: declares the enum class and applies `SETUP_ENUM_LENGTH` with
`BOOST_PP_VARIADIC_SIZE(__VA_ARGS__)` and `SETUP_ENUM_TRAIT`. -/
def DEF_ENUM (name : String) (args : List String) : EnumClass :=
  { name := name
    enumerators := args
    length := BOOST_PP_VARIADIC_SIZE args
    managed := true }

/-- `E` is an enum declared through `DEF_ENUM` with at least one enumerator, and its enumerators
(numbered `0, 1, ...` by the compiler) fit the underlying type `uint8_t`. -/
def Declared (E : EnumClass) : Prop :=
  0 < E.enumerators.length ∧ E.enumerators.length ≤ 256 ∧
    E = DEF_ENUM E.name E.enumerators

instance (E : EnumClass) : Decidable (Declared E) := by
  unfold Declared; exact inferInstance

/-- `enum_size_helper((Enum*)nullptr)` as defined by `SETUP_ENUM_LENGTH(enum_type, length)`. -/
def enum_size_helper (E : EnumClass) : Nat := E.length

/-- `enum_size<Enum>::value`. -/
def enum_size (E : EnumClass) : Nat := enum_size_helper E

/-- A value of the enum class `E`: the 8-bit underlying representation. -/
structure Enum (E : EnumClass) where
  raw : Nat
deriving DecidableEq, Repr

/-- `static_cast<Enum>(i)` for an integer `i`. -/
def static_cast_Enum (E : EnumClass) (i : Int) : Enum E := ⟨to_uint8 i⟩

/-- The variants of `E`: the values of its enumerators, `0, 1, ..., n-1` in declaration order. -/
def is_variant {E : EnumClass} (v : Enum E) : Prop := v.raw < E.enumerators.length

instance {E : EnumClass} (v : Enum E) : Decidable (is_variant v) := by
  unfold is_variant; exact inferInstance

/-- The three enums declared in `main.cpp`. -/
def enum_1 : EnumClass := DEF_ENUM "enum_1" ["foo", "bar"]

def enum_2 : EnumClass := DEF_ENUM "enum_2" ["foo", "bar", "baz"]

def enum_ns : EnumClass := DEF_ENUM "ns::enum_ns" ["foo", "bar", "baz"]

/-! ## enum_index, enum_value -/

/-- `enum_index(e)`: `static_cast<underlying_type>(e)`. -/
def enum_index {E : EnumClass} (e : Enum E) : Nat := e.raw

/-- The outcome of instantiating a function template and running the call: the instantiation is
rejected at build time, or it is built and the call has a result. -/
inductive Instantiation (α : Type) where
  | ill_formed (diagnostic : String)
  | built (result : α)

/-- The diagnostic for the unqualified call `to_string(i)` when lookup finds no declaration. -/
def to_string_not_declared : String := "to_string was not declared in this scope"

/-- The body of `enum_value<Enum>(i)`, `i` of type `uint8_t`, with the unqualified call
`to_string(i)` resolved to the function `to_string`. -/
def enum_value_body (to_string : Nat → String) (E : EnumClass) (i : Nat) :
    Except Exception (Enum E) :=
  if i ≥ enum_size E then
    .error (.out_of_range ("enum conversion out of range, value: " ++ to_string i))
  else
    .ok (static_cast_Enum E i)

/-- `enum_value<Enum>(i)`, `i` of type `uint8_t`. The body calls `to_string(i)` unqualified.
The header declares no `to_string`, and argument-dependent lookup adds nothing for the
fundamental type `uint8_t`, so the name resolves only to a declaration that the including
program made visible before the header: `lookup` is that declaration, if there is one. Without
one every instantiation of `enum_value` is rejected at build time. -/
def enum_value (lookup : Option (Nat → String)) (E : EnumClass) (i : Nat) :
    Instantiation (Except Exception (Enum E)) :=
  match lookup with
  | none => .ill_formed to_string_not_declared
  | some to_string => .built (enum_value_body to_string E i)

/-- What lookup of `to_string` finds in `main.cpp`: the header is the first include, there is no
using-directive and no declaration of `to_string` before it, so nothing is found. -/
def main_cpp_lookup : Option (Nat → String) := none

/-! ## enum_for_each -/

/-- The loop of `enum_for_each`, entered with counter `i`. The effect of the callback on the
program state `σ` is the function `fct`. -/
def enum_for_each_loop (E : EnumClass) {σ : Type} (fct : σ → Enum E → σ) (i : Nat) (s : σ) : σ :=
  if i < enum_size E then
    enum_for_each_loop E fct (i + 1) (fct s (static_cast_Enum E i))
  else
    s
termination_by enum_size E - i

/-- `enum_for_each<Enum>(fct)`. -/
def enum_for_each (E : EnumClass) {σ : Type} (fct : σ → Enum E → σ) (s : σ) : σ :=
  enum_for_each_loop E fct 0 s

/-- The callback that appends its argument to a log of the calls made so far. -/
def record_call {E : EnumClass} (log : List (Enum E)) (e : Enum E) : List (Enum E) :=
  log ++ [e]

/-! ## std::array and std::find -/

/-- `std::array<T, N>`: exactly `N` elements. -/
structure std_array (T : Type) (N : Nat) where
  elems : List T
  size_eq : elems.length = N

/-- The `what()` text of the exception thrown by `std::array::at`. -/
def array_at_what : String := "array::at"

/-- `std::array<T, N>::at(n)` for reading, `n` of type `size_type`. -/
def std_array.at_read {T : Type} {N : Nat} (a : std_array T N) (n : Nat) : Except Exception T :=
  if hn : n < N then
    .ok (a.elems.get ⟨n, by rw [a.size_eq]; exact hn⟩)
  else
    .error (.out_of_range array_at_what)

/-- The statement `a.at(n) = value`: the outcome and the array afterwards. -/
def std_array.at_assign {T : Type} {N : Nat} (a : std_array T N) (n : Nat) (value : T) :
    Except Exception Unit × std_array T N :=
  if n < N then
    (.ok (), ⟨a.elems.set n value, by rw [List.length_set]; exact a.size_eq⟩)
  else
    (.error (.out_of_range array_at_what), a)

/-- `std::distance(first, std::find(first, last, value))`: the number of elements passed before
the scan stops, which is the length of the range when no element compares equal. -/
def std_find {T : Type} [BEq T] : List T → T → Nat
  | [], _ => 0
  | a :: rest, value => if a == value then 0 else std_find rest value + 1

/-! ## enum_array -/

/-- `enum_array<Enum, T>`: the member `std::array<T, enum_size<Enum>::value> _data`. -/
structure enum_array (E : EnumClass) (T : Type) where
  _data : std_array T (enum_size E)

/-- `typeid(Enum).name()` (implementation defined; modelled by the declared name). -/
def typeid_name (E : EnumClass) : String := E.name

namespace enum_array

variable {E : EnumClass} {T : Type}

/-- `enum_array::size()`. -/
def size (_c : enum_array E T) : Nat := enum_size E

/-- `enum_array::at(int index)` (const and non-const read); the argument is converted to
`size_type`. -/
def at_index (c : enum_array E T) (index : Int) : Except Exception T :=
  c._data.at_read (to_size_t index)

/-- `enum_array::at(Enum type)` (const and non-const read). -/
def at_enum (c : enum_array E T) (type : Enum E) : Except Exception T :=
  c._data.at_read (enum_index type)

/-- `enum_array::set_value(int index, const value_type &value)`: the outcome and the container
afterwards. -/
def set_value_index (c : enum_array E T) (index : Int) (value : T) :
    Except Exception Unit × enum_array E T :=
  ((c._data.at_assign (to_size_t index) value).1, ⟨(c._data.at_assign (to_size_t index) value).2⟩)

/-- `enum_array::set_value(Enum type, const value_type &value)`: the outcome and the container
afterwards. -/
def set_value_enum (c : enum_array E T) (type : Enum E) (value : T) :
    Except Exception Unit × enum_array E T :=
  ((c._data.at_assign (enum_index type) value).1, ⟨(c._data.at_assign (enum_index type) value).2⟩)

/-- Iteration from `begin()` to `end()`: the values in the order visited. -/
def iterate (c : enum_array E T) : List T := c._data.elems

/-- `enum_array::find(const Value &value)`, the overload for a `Value` from which a
`std::string` can be constructed. -/
def find_string [BEq T] [ToString T] (c : enum_array E T) (value : T) :
    Except Exception (Enum E) :=
  let it := std_find c._data.elems value
  if it ≠ c._data.elems.length then
    .ok (static_cast_Enum E it)
  else
    .error (.invalid_argument
      ("Value \"" ++ toString value ++ "\" not found for enum " ++ typeid_name E))

/-- `enum_array::find(const Value &value)`, the overload for every other `Value`. -/
def find_other [BEq T] (c : enum_array E T) (value : T) : Except Exception (Enum E) :=
  let it := std_find c._data.elems value
  if it ≠ c._data.elems.length then
    .ok (static_cast_Enum E it)
  else
    .error (.invalid_argument ("Value not found for enum " ++ typeid_name E))

/-- `enum_array::find(const value_type &value, Enum default_value)`. -/
def find_default [BEq T] (c : enum_array E T) (value : T) (default_value : Enum E) : Enum E :=
  let it := std_find c._data.elems value
  if it ≠ c._data.elems.length then static_cast_Enum E it else default_value

/-- `enum_array::find_optional(const value_type &value)`. -/
def find_optional [BEq T] (c : enum_array E T) (value : T) : Option (Enum E) :=
  let it := std_find c._data.elems value
  if it ≠ c._data.elems.length then some (static_cast_Enum E it) else none

/-- The value stored in slot `i`, when the container has such a slot. -/
def slot (c : enum_array E T) (i : Nat) : Option T := c._data.elems[i]?

/-- Slot `i` exists and its value compares equal to `x` under `operator==`. -/
def slot_eq [BEq T] (c : enum_array E T) (i : Nat) (x : T) : Bool :=
  match c.slot i with
  | some y => y == x
  | none => false

end enum_array

/-- The container `strings_1 {"Foo", "Bar"}` of `main.cpp`. -/
def strings_1 : enum_array enum_1 String := ⟨⟨["Foo", "Bar"], by decide⟩⟩

/-! ## enum_member -/

/-- `enum_member<Enum>`: the member `std::array<Enum, enum_size<Enum>::value> _data`. -/
structure enum_member (E : EnumClass) where
  _data : std_array (Enum E) (enum_size E)

namespace enum_member

variable {E : EnumClass}

/-- The loop of the constructor, entered with counter `i` and array `data`:
`_data.at(i) = static_cast<Enum>(i)` as long as `i` is below the size. -/
def ctor_loop (E : EnumClass) (i : Nat) (data : std_array (Enum E) (enum_size E)) :
    Except Exception (std_array (Enum E) (enum_size E)) :=
  if i < enum_size E then
    match data.at_assign (to_size_t i) (static_cast_Enum E i) with
    | (.ok _, data') => ctor_loop E (i + 1) data'
    | (.error ex, _) => .error ex
  else
    .ok data
termination_by enum_size E - i

/-- `enum_member::enum_member()`. The array member is default-initialised, so its contents
before the loop are indeterminate: they are the argument `init`. -/
def ctor (E : EnumClass) (init : std_array (Enum E) (enum_size E)) :
    Except Exception (enum_member E) :=
  match ctor_loop E 0 init with
  | .ok data => .ok ⟨data⟩
  | .error ex => .error ex

/-- `enum_member::size()`. -/
def size (_m : enum_member E) : Nat := enum_size E

/-- Iteration from `begin()` to `end()`: the values in the order visited. -/
def iterate (m : enum_member E) : List (Enum E) := m._data.elems

end enum_member

/-- The variants of `E` in index order: the values `0, 1, ..., n-1`. -/
def variants (E : EnumClass) : List (Enum E) :=
  (List.range E.enumerators.length).map (fun i => (⟨i⟩ : Enum E))

/-- The enumerator `id` of `E` as a value: the compiler numbers the enumerators `0, 1, ...` in
declaration order. -/
def enumerator (E : EnumClass) (id : String) : Option (Enum E) :=
  if id ∈ E.enumerators then some ⟨E.enumerators.indexOf id⟩ else none

/-! ## Construction of an enum_array -/

/-- The initialisation `{ {list...} }` of a `std::array<T, N>` from at most `N` values: the
elements without an initialiser are value-initialised. -/
def std_array.aggregate {T : Type} [Inhabited T] (N : Nat) (list : List T)
    (h : list.length ≤ N) : std_array T N :=
  ⟨list ++ List.replicate (N - list.length) default, by
    rw [List.length_append, List.length_replicate]; omega⟩

/-- `std::array::fill(value)`. -/
def std_array.fill {T : Type} {N : Nat} (a : std_array T N) (value : T) : std_array T N :=
  ⟨a.elems.map (fun _ => value), by rw [List.length_map]; exact a.size_eq⟩

namespace enum_array

variable {T : Type}

/-- The condition of the `static_assert` in the constructor `enum_array(Args ... list)` when it
is instantiated with `sizeof...(Args) = k`. -/
def ctor_list_static_assert (E : EnumClass) (k : Nat) : Bool :=
  enum_size E == k || k == 0

/-- `enum_array(Args ... list)`, for an argument list that passes the static assertion:
`_data = { {std::forward<Args>(list)...} }`. -/
def ctor_list [Inhabited T] (E : EnumClass) (list : List T)
    (h : ctor_list_static_assert E list.length = true) : enum_array E T :=
  ⟨std_array.aggregate (enum_size E) list (by
    simp only [ctor_list_static_assert, Bool.or_eq_true, beq_iff_eq] at h
    omega)⟩

/-- `enum_array(value_type default_value)`: `_data.fill(default_value)`. The array member is
default-initialised before the body runs; its contents then are the argument `init`. -/
def ctor_fill (E : EnumClass) (init : std_array T (enum_size E)) (default_value : T) :
    enum_array E T :=
  ⟨init.fill default_value⟩

end enum_array

/-! ## is_managed_enum -/

/-- `SETUP_ENUM_LENGTH(enum_type, length)`: defines `enum_size_helper(enum_type*)`. -/
def SETUP_ENUM_LENGTH (E : EnumClass) (length : Nat) : EnumClass := { E with length := length }

/-- The class of an exception, without its text. -/
inductive ExceptionKind where
  | out_of_range
  | invalid_argument
deriving DecidableEq, Repr

/-- The class of an exception. -/
def Exception.kind : Exception → ExceptionKind
  | .out_of_range _ => .out_of_range
  | .invalid_argument _ => .invalid_argument

/-- A value type whose `operator==` is not reflexive, as `double` with its NaN: `nan` compares
unequal to everything, itself included. -/
inductive Number where
  | nan
  | num (n : Nat)
deriving Repr

/-- `operator==` on `Number`. -/
def Number.eq : Number → Number → Bool
  | .num m, .num n => m == n
  | _, _ => false

instance : BEq Number := ⟨Number.eq⟩

/-- An `enum_array<enum_1, Number>` holding `{nan, 1}`. -/
def numbers_1 : enum_array enum_1 Number := ⟨⟨[.nan, .num 1], by decide⟩⟩

namespace enum_array

variable {E : EnumClass} {T : Type}

/-- The slot values are pairwise distinct: values in different slots do not compare equal. -/
def pairwise_distinct [BEq T] (c : enum_array E T) : Prop :=
  c.iterate.Pairwise (fun a b => (a == b) = false ∧ (b == a) = false)

/-- Every slot value compares equal to itself. -/
def reflexive_eq [BEq T] (c : enum_array E T) : Prop :=
  ∀ y, y ∈ c.iterate → (y == y) = true

end enum_array

/-! ## Basic facts -/

theorem to_uint8_of_lt {i : Nat} (h : i < 256) : to_uint8 (i : Int) = i := by
  unfold to_uint8
  omega

theorem enum_size_of_declared {E : EnumClass} (hE : Declared E) :
    enum_size E = E.enumerators.length := by
  obtain ⟨hpos, -, heq⟩ := hE
  have h1 : E.length = (DEF_ENUM E.name E.enumerators).length := by rw [← heq]
  have h2 : E.enumerators.isEmpty = false := by
    cases hl : E.enumerators with
    | nil => simp [hl] at hpos
    | cons a l => rfl
  simp only [enum_size, enum_size_helper, h1, DEF_ENUM, BOOST_PP_VARIADIC_SIZE, h2]
  simp

theorem enum_size_le_of_declared {E : EnumClass} (hE : Declared E) : enum_size E ≤ 256 := by
  rw [enum_size_of_declared hE]
  exact hE.2.1

theorem static_cast_Enum_of_lt (E : EnumClass) {i : Nat} (h : i < 256) :
    static_cast_Enum E (i : Int) = ⟨i⟩ := by
  simp only [static_cast_Enum, to_uint8_of_lt h]

theorem to_uint8_lt (i : Int) : to_uint8 i < 256 := by
  unfold to_uint8
  omega

theorem enum_value_body_ok_of_lt (to_string : Nat → String) {E : EnumClass} {i : Nat}
    (h : i < enum_size E) : enum_value_body to_string E i = .ok (static_cast_Enum E i) := by
  unfold enum_value_body
  rw [if_neg (by omega)]

theorem enum_value_body_error_of_ge (to_string : Nat → String) {E : EnumClass} {i : Nat}
    (h : enum_size E ≤ i) :
    enum_value_body to_string E i =
      .error (.out_of_range ("enum conversion out of range, value: " ++ to_string i)) := by
  unfold enum_value_body
  rw [if_pos h]

theorem enum_value_built (to_string : Nat → String) (E : EnumClass) (i : Nat) :
    enum_value (some to_string) E i = .built (enum_value_body to_string E i) := rfl

theorem enum_value_ill_formed (E : EnumClass) (i : Nat) :
    enum_value main_cpp_lookup E i = .ill_formed to_string_not_declared := rfl

/-! ## Index conversion -/

/-- With `to_string` resolved, the body of `enum_value` returns a variant from its index. -/
theorem enum_value_body_enum_index (to_string : Nat → String) (E : EnumClass)
    (hE : Declared E) (v : Enum E) (hv : is_variant v) :
    enum_value_body to_string E (enum_index v) = .ok v := by
  have hlt : v.raw < enum_size E := by rw [enum_size_of_declared hE]; exact hv
  have h256 : v.raw < 256 := lt_of_lt_of_le hlt (enum_size_le_of_declared hE)
  rw [enum_index, enum_value_body_ok_of_lt to_string hlt, static_cast_Enum_of_lt E h256]

/-- With `to_string` resolved, the body of `enum_value` succeeds exactly below the size, returns
the variant with the given index, and throws `std::out_of_range` from the size on. -/
theorem enum_value_body_ok_iff (to_string : Nat → String) (E : EnumClass) (hE : Declared E)
    (i : Nat) :
    ((∃ v, enum_value_body to_string E i = .ok v) ↔ i < E.enumerators.length) ∧
    (i < E.enumerators.length →
      ∃ v, enum_value_body to_string E i = .ok v ∧ is_variant v ∧ enum_index v = i) ∧
    (E.enumerators.length ≤ i →
      (∃ what, enum_value_body to_string E i = .error (.out_of_range what)) ∧
        ¬ ∃ v, enum_value_body to_string E i = .ok v) := by
  have hn := enum_size_of_declared hE
  have hok : i < E.enumerators.length →
      ∃ v, enum_value_body to_string E i = .ok v ∧ is_variant v ∧ enum_index v = i := by
    intro hlt
    have h256 : i < 256 := lt_of_lt_of_le hlt hE.2.1
    refine ⟨⟨i⟩, ?_, hlt, rfl⟩
    rw [enum_value_body_ok_of_lt to_string (by omega), static_cast_Enum_of_lt E h256]
  have herr : E.enumerators.length ≤ i →
      (∃ what, enum_value_body to_string E i = .error (.out_of_range what)) ∧
        ¬ ∃ v, enum_value_body to_string E i = .ok v := by
    intro hge
    have h := enum_value_body_error_of_ge to_string (E := E) (i := i) (by omega)
    refine ⟨⟨_, h⟩, ?_⟩
    rintro ⟨v, hv⟩
    rw [h] at hv
    cases hv
  refine ⟨⟨?_, fun hlt => ?_⟩, hok, herr⟩
  · intro hex
    by_contra hge
    exact (herr (Nat.le_of_not_lt hge)).2 hex
  · obtain ⟨v, hv, -⟩ := hok hlt
    exact ⟨v, hv⟩

/-- C1: in this repository the round trip `enum_value<E>(enum_index(v))` does not succeed: no
declaration of `to_string` is visible to the header, so the instantiation of `enum_value` is
rejected at build time, for `enum_1` and its variant `bar` as for every enum and index. The
body does what the claim says once the call to `to_string` resolves: it then returns `bar`. -/
theorem enum_value_enum_index_ill_formed :
    Declared enum_1 ∧ is_variant (⟨1⟩ : Enum enum_1) ∧
      enum_value main_cpp_lookup enum_1 (enum_index (⟨1⟩ : Enum enum_1)) =
        .ill_formed to_string_not_declared ∧
      (∀ (E : EnumClass) (v : Enum E),
        enum_value main_cpp_lookup E (enum_index v) = .ill_formed to_string_not_declared) ∧
      ∀ to_string : Nat → String,
        enum_value (some to_string) enum_1 (enum_index (⟨1⟩ : Enum enum_1)) =
          .built (.ok ⟨1⟩) :=
  ⟨by decide, by decide, rfl, fun _ _ => rfl, fun to_string =>
    congrArg Instantiation.built
      (enum_value_body_enum_index to_string enum_1 (by decide) ⟨1⟩ (by decide))⟩

/-- C2: in this repository `enum_value<E>(i)` neither succeeds below `n` nor throws
`std::out_of_range` from `n` on: no declaration of `to_string` is visible to the header, so the
instantiation is rejected at build time for every enum and index, for `enum_2` at `i = 1` and at
`i = 3 = n` in particular. The body does what the claim says once the call to `to_string`
resolves: it then returns the variant with index 1, and throws `std::out_of_range` at 3. -/
theorem enum_value_ok_iff_ill_formed :
    Declared enum_2 ∧
      enum_value main_cpp_lookup enum_2 1 = .ill_formed to_string_not_declared ∧
      enum_value main_cpp_lookup enum_2 3 = .ill_formed to_string_not_declared ∧
      (∀ (E : EnumClass) (i : Nat),
        enum_value main_cpp_lookup E i = .ill_formed to_string_not_declared) ∧
      (∀ to_string : Nat → String,
        enum_value (some to_string) enum_2 1 = .built (.ok ⟨1⟩)) ∧
      ∀ to_string : Nat → String,
        enum_value (some to_string) enum_2 3 =
          .built (.error (.out_of_range
            ("enum conversion out of range, value: " ++ to_string 3))) :=
  ⟨by decide, rfl, rfl, fun _ _ => rfl, fun _ => rfl, fun _ => rfl⟩

/-- C3, as stated, fails: the caller's integer `-256` is reduced modulo `2^8` to `0`, and
`enum_value<enum_1>` does not throw `std::out_of_range` for it, however the call to `to_string`
resolves: in this repository the instantiation is rejected at build time, and with a declaration
of `to_string` visible the call returns the variant `foo` (index 0). -/
theorem enum_value_negative_counterexample :
    Declared enum_1 ∧ (-256 : Int) < 0 ∧ is_int (-256) ∧
      enum_value main_cpp_lookup enum_1 (to_uint8 (-256)) =
        .ill_formed to_string_not_declared ∧
      (∀ to_string : Nat → String,
        enum_value (some to_string) enum_1 (to_uint8 (-256)) = .built (.ok ⟨0⟩)) ∧
      ∀ lookup : Option (Nat → String),
        ¬ ∃ what, enum_value lookup enum_1 (to_uint8 (-256)) =
          .built (.error (.out_of_range what)) := by
  refine ⟨by decide, by decide, by decide, rfl, fun _ => rfl, fun lookup => ?_⟩
  rintro ⟨what, h⟩
  cases lookup with
  | none => cases h
  | some to_string =>
    have h0 : enum_value (some to_string) enum_1 (to_uint8 (-256)) = .built (.ok ⟨0⟩) := rfl
    rw [h0] at h
    cases h

/-- C3, amended: for a declared enum `E` with `n` variants and a negative integer `i` passed by
a caller, the index is reduced modulo `2^8` before the range check; where the call builds (a
declaration of `to_string` is visible), `enum_value<E>(i)` throws `std::out_of_range` exactly
when `i mod 2^8 >= n`, in particular for every `i` with `n - 256 <= i < 0`, and otherwise it
returns the variant with index `i mod 2^8`. -/
theorem enum_value_negative (to_string : Nat → String) (E : EnumClass) (hE : Declared E)
    (i : Int) (hneg : i < 0) :
    ((∃ what, enum_value (some to_string) E (to_uint8 i) =
        .built (.error (.out_of_range what))) ↔
      E.enumerators.length ≤ to_uint8 i) ∧
    ((E.enumerators.length : Int) - 256 ≤ i →
      ∃ what, enum_value (some to_string) E (to_uint8 i) =
        .built (.error (.out_of_range what))) ∧
    (to_uint8 i < E.enumerators.length →
      ∃ v, enum_value (some to_string) E (to_uint8 i) = .built (.ok v) ∧ is_variant v ∧
        (enum_index v : Int) = i % 256) := by
  have hn := enum_size_of_declared hE
  have hiff : (∃ what, enum_value (some to_string) E (to_uint8 i) =
        .built (.error (.out_of_range what))) ↔
      E.enumerators.length ≤ to_uint8 i := by
    constructor
    · rintro ⟨what, h⟩
      by_contra hlt
      rw [enum_value_built, enum_value_body_ok_of_lt to_string (by omega)] at h
      cases h
    · intro hge
      exact ⟨_, by rw [enum_value_built, enum_value_body_error_of_ge to_string (by omega)]⟩
  refine ⟨hiff, fun hlow => hiff.2 ?_, fun hlt => ?_⟩
  · unfold to_uint8
    omega
  · refine ⟨⟨to_uint8 i⟩, ?_, hlt, ?_⟩
    · rw [enum_value_built, enum_value_body_ok_of_lt to_string (by omega),
        static_cast_Enum_of_lt E (to_uint8_lt i)]
    · simp only [enum_index, to_uint8]
      omega

theorem enum_value_negative_witness :
    Declared enum_1 ∧ (-1 : Int) < 0 ∧
      ∃ what, enum_value (some toString) enum_1 (to_uint8 (-1)) =
        .built (.error (.out_of_range what)) :=
  ⟨by decide, by decide,
    (enum_value_negative toString enum_1 (by decide) (-1) (by decide)).2.1 (by decide)⟩

/-! ## Search in an enum_array -/

theorem std_find_le {T : Type} [BEq T] (l : List T) (x : T) : std_find l x ≤ l.length := by
  induction l with
  | nil => simp [std_find]
  | cons a rest ih =>
    simp only [std_find, List.length_cons]
    split <;> omega

theorem std_find_hit {T : Type} [BEq T] (l : List T) (x : T) (h : std_find l x < l.length) :
    ∃ y, l[std_find l x]? = some y ∧ (y == x) = true := by
  induction l with
  | nil => simp [std_find] at h
  | cons a rest ih =>
    simp only [std_find, List.length_cons] at h ⊢
    by_cases hax : (a == x) = true
    · rw [if_pos hax]
      exact ⟨a, by simp, hax⟩
    · rw [if_neg hax] at h ⊢
      obtain ⟨y, hy, hyx⟩ := ih (by omega)
      exact ⟨y, by simpa using hy, hyx⟩

theorem std_find_before {T : Type} [BEq T] (l : List T) (x : T) (j : Nat)
    (hj : j < std_find l x) : ∃ y, l[j]? = some y ∧ (y == x) = false := by
  induction l generalizing j with
  | nil => simp [std_find] at hj
  | cons a rest ih =>
    simp only [std_find] at hj
    by_cases hax : (a == x) = true
    · rw [if_pos hax] at hj
      omega
    · rw [if_neg hax] at hj
      cases j with
      | zero => exact ⟨a, by simp, by simpa using hax⟩
      | succ k =>
        obtain ⟨y, hy, hyx⟩ := ih k (by omega)
        exact ⟨y, by simpa using hy, hyx⟩

namespace enum_array

variable {E : EnumClass} {T : Type}

theorem slot_eq_find [BEq T] (c : enum_array E T) (x : T)
    (h : std_find c._data.elems x ≠ c._data.elems.length) :
    c.slot_eq (std_find c._data.elems x) x = true := by
  have hlt : std_find c._data.elems x < c._data.elems.length :=
    lt_of_le_of_ne (std_find_le _ _) h
  obtain ⟨y, hy, hyx⟩ := std_find_hit _ _ hlt
  simp only [slot_eq, slot, hy, hyx]

theorem slot_eq_before_find [BEq T] (c : enum_array E T) (x : T) (j : Nat)
    (hj : j < std_find c._data.elems x) : c.slot_eq j x = false := by
  obtain ⟨y, hy, hyx⟩ := std_find_before _ _ j hj
  simp only [slot_eq, slot, hy, hyx]

theorem slot_eq_lt [BEq T] (c : enum_array E T) (x : T) (i : Nat)
    (h : c.slot_eq i x = true) : i < c._data.elems.length := by
  by_contra hge
  have hnone : c._data.elems[i]? = none := List.getElem?_eq_none (by omega)
  simp [slot_eq, slot, hnone] at h

/-- The scan stops inside the array exactly when some slot compares equal to the value. -/
theorem find_ne_length_iff [BEq T] (c : enum_array E T) (x : T) :
    std_find c._data.elems x ≠ c._data.elems.length ↔ ∃ i, c.slot_eq i x = true := by
  constructor
  · intro h
    exact ⟨_, slot_eq_find c x h⟩
  · rintro ⟨i, hi⟩ heq
    have hlt := slot_eq_lt c x i hi
    have := slot_eq_before_find c x i (by omega)
    rw [this] at hi
    cases hi

/-- The position at which the scan stops converts to a variant with that index. -/
theorem find_cast [BEq T] (hE : Declared E) (c : enum_array E T) (x : T)
    (h : std_find c._data.elems x ≠ c._data.elems.length) :
    static_cast_Enum E (std_find c._data.elems x) = ⟨std_find c._data.elems x⟩ ∧
      is_variant (⟨std_find c._data.elems x⟩ : Enum E) := by
  have hlt : std_find c._data.elems x < c._data.elems.length :=
    lt_of_le_of_ne (std_find_le _ _) h
  rw [c._data.size_eq] at hlt
  have h256 := enum_size_le_of_declared hE
  refine ⟨static_cast_Enum_of_lt E (by omega), ?_⟩
  unfold is_variant
  rw [← enum_size_of_declared hE]
  exact hlt

end enum_array

namespace enum_array

variable {E : EnumClass} {T : Type}

/-- The first slot that compares equal to the value is where the scan stops. -/
theorem find_eq_of_first [BEq T] (c : enum_array E T) (x : T) (i : Nat)
    (hi : c.slot_eq i x = true) (hbefore : ∀ j, j < i → c.slot_eq j x = false) :
    std_find c._data.elems x = i := by
  have hne := (find_ne_length_iff c x).2 ⟨i, hi⟩
  have hk := slot_eq_find c x hne
  rcases Nat.lt_trichotomy (std_find c._data.elems x) i with hlt | heq | hgt
  · rw [hbefore _ hlt] at hk
    cases hk
  · exact heq
  · rw [slot_eq_before_find c x i hgt] at hi
    cases hi

theorem not_exists_slot_eq [BEq T] (c : enum_array E T) (x : T) :
    (¬ ∃ i, c.slot_eq i x = true) ↔ ∀ i, c.slot_eq i x = false := by
  constructor
  · intro h i
    cases hs : c.slot_eq i x with
    | false => rfl
    | true => exact absurd ⟨i, hs⟩ h
  · rintro h ⟨i, hi⟩
    rw [h i] at hi
    cases hi

theorem strings_1_no_missing (i : Nat) : strings_1.slot_eq i "Missing" = false := by
  match i with
  | 0 => decide
  | 1 => decide
  | k + 2 => simp [slot_eq, slot, strings_1]

end enum_array

/-- C4: for an `enum_array` `c` over a declared enum and a query value `x`: if some slot of `c`
equals `x`, both unconditional overloads of `c.find(x)` return the variant whose index is the
smallest `i` with slot `i` equal to `x`; if no slot equals `x`, both throw
`std::invalid_argument` (not found). -/
theorem find_first_match (E : EnumClass) (hE : Declared E) {T : Type} [BEq T] [ToString T]
    (c : enum_array E T) (x : T) :
    ((∃ i, c.slot_eq i x = true) →
      ∃ v, c.find_string x = .ok v ∧ c.find_other x = .ok v ∧ is_variant v ∧
        c.slot_eq (enum_index v) x = true ∧ ∀ j, j < enum_index v → c.slot_eq j x = false) ∧
    ((∀ i, c.slot_eq i x = false) →
      (∃ what, c.find_string x = .error (.invalid_argument what)) ∧
        (∃ what, c.find_other x = .error (.invalid_argument what))) := by
  constructor
  · intro hex
    have hne := (enum_array.find_ne_length_iff c x).2 hex
    obtain ⟨hcast, hvar⟩ := enum_array.find_cast hE c x hne
    refine ⟨⟨std_find c._data.elems x⟩, ?_, ?_, hvar, enum_array.slot_eq_find c x hne,
      fun j hj => enum_array.slot_eq_before_find c x j hj⟩
    · simp only [enum_array.find_string]
      rw [if_pos hne, hcast]
    · simp only [enum_array.find_other]
      rw [if_pos hne, hcast]
  · intro hall
    have heq : ¬ std_find c._data.elems x ≠ c._data.elems.length := by
      rw [enum_array.find_ne_length_iff]
      exact (enum_array.not_exists_slot_eq c x).2 hall
    constructor
    · refine ⟨"Value \"" ++ toString x ++ "\" not found for enum " ++ typeid_name E, ?_⟩
      simp only [enum_array.find_string]
      rw [if_neg heq]
    · refine ⟨"Value not found for enum " ++ typeid_name E, ?_⟩
      simp only [enum_array.find_other]
      rw [if_neg heq]

theorem find_first_match_witness :
    Declared enum_1 ∧
      strings_1.find_string "Bar" = .ok ⟨1⟩ ∧
      (∃ v, strings_1.find_string "Bar" = .ok v ∧ strings_1.find_other "Bar" = .ok v ∧
        is_variant v ∧ strings_1.slot_eq (enum_index v) "Bar" = true ∧
        ∀ j, j < enum_index v → strings_1.slot_eq j "Bar" = false) ∧
      ((∃ what, strings_1.find_string "Missing" = .error (.invalid_argument what)) ∧
        (∃ what, strings_1.find_other "Missing" = .error (.invalid_argument what))) :=
  ⟨by decide, rfl,
    (find_first_match enum_1 (by decide) strings_1 "Bar").1 ⟨1, by decide⟩,
    (find_first_match enum_1 (by decide) strings_1 "Missing").2
      enum_array.strings_1_no_missing⟩

/-- C5: for an `enum_array` `c` over a declared enum, a query value `x` and an enum value `d`,
`c.find(x, d)` (a total function: it has no failing path) returns the variant of the first slot
in index order equal to `x` when there is one, and it returns `d` exactly when no slot equals
`x` or the first matching slot is the one of `d`. -/
theorem find_default_spec (E : EnumClass) (hE : Declared E) {T : Type} [BEq T]
    (c : enum_array E T) (x : T) (d : Enum E) :
    ((∃ i, c.slot_eq i x = true) →
      is_variant (c.find_default x d) ∧
        c.slot_eq (enum_index (c.find_default x d)) x = true ∧
        ∀ j, j < enum_index (c.find_default x d) → c.slot_eq j x = false) ∧
    (c.find_default x d = d ↔
      ((∀ i, c.slot_eq i x = false) ∨
        (c.slot_eq (enum_index d) x = true ∧ ∀ j, j < enum_index d → c.slot_eq j x = false))) := by
  by_cases hne : std_find c._data.elems x ≠ c._data.elems.length
  · obtain ⟨hcast, hvar⟩ := enum_array.find_cast hE c x hne
    have hres : c.find_default x d = ⟨std_find c._data.elems x⟩ := by
      simp only [enum_array.find_default]
      rw [if_pos hne, hcast]
    have hhit := enum_array.slot_eq_find c x hne
    rw [hres]
    refine ⟨fun _ => ⟨hvar, hhit, fun j hj => enum_array.slot_eq_before_find c x j hj⟩, ?_, ?_⟩
    · intro hd
      right
      rw [← hd]
      exact ⟨hhit, fun j hj => enum_array.slot_eq_before_find c x j hj⟩
    · rintro (hall | ⟨hd, hbefore⟩)
      · rw [hall] at hhit
        cases hhit
      · rw [enum_array.find_eq_of_first c x (enum_index d) hd hbefore]
        rfl
  · have hres : c.find_default x d = d := by
      simp only [enum_array.find_default]
      rw [if_neg hne]
    have hall : ∀ i, c.slot_eq i x = false := by
      rw [← enum_array.not_exists_slot_eq, ← enum_array.find_ne_length_iff]
      exact hne
    refine ⟨fun hex => ?_, fun _ => Or.inl hall, fun _ => hres⟩
    exact absurd ((enum_array.find_ne_length_iff c x).2 hex) hne

theorem find_default_spec_witness :
    Declared enum_1 ∧
      strings_1.find_default "Missing" ⟨0⟩ = ⟨0⟩ ∧
      strings_1.find_default "Bar" ⟨0⟩ = ⟨1⟩ ∧
      (strings_1.find_default "Missing" ⟨0⟩ = ⟨0⟩ ↔
        ((∀ i, strings_1.slot_eq i "Missing" = false) ∨
          (strings_1.slot_eq (enum_index (⟨0⟩ : Enum enum_1)) "Missing" = true ∧
            ∀ j, j < enum_index (⟨0⟩ : Enum enum_1) →
              strings_1.slot_eq j "Missing" = false))) :=
  ⟨by decide, by decide, by decide,
    (find_default_spec enum_1 (by decide) strings_1 "Missing" ⟨0⟩).2⟩

/-- C6: for an `enum_array` `c` over a declared enum and a query value `x`,
`c.find_optional(x)` (a total function: it has no failing path) is empty if and only if no slot
of `c` equals `x`, and otherwise holds the variant of the first slot in index order equal to
`x`. -/
theorem find_optional_spec (E : EnumClass) (hE : Declared E) {T : Type} [BEq T]
    (c : enum_array E T) (x : T) :
    (c.find_optional x = none ↔ ∀ i, c.slot_eq i x = false) ∧
    ((∃ i, c.slot_eq i x = true) →
      ∃ v, c.find_optional x = some v ∧ is_variant v ∧
        c.slot_eq (enum_index v) x = true ∧ ∀ j, j < enum_index v → c.slot_eq j x = false) := by
  by_cases hne : std_find c._data.elems x ≠ c._data.elems.length
  · obtain ⟨hcast, hvar⟩ := enum_array.find_cast hE c x hne
    have hres : c.find_optional x = some ⟨std_find c._data.elems x⟩ := by
      simp only [enum_array.find_optional]
      rw [if_pos hne, hcast]
    have hhit := enum_array.slot_eq_find c x hne
    refine ⟨⟨fun hnone => ?_, fun hall => ?_⟩, fun _ =>
      ⟨_, hres, hvar, hhit, fun j hj => enum_array.slot_eq_before_find c x j hj⟩⟩
    · rw [hres] at hnone
      cases hnone
    · rw [hall] at hhit
      cases hhit
  · have hres : c.find_optional x = none := by
      simp only [enum_array.find_optional]
      rw [if_neg hne]
    have hall : ∀ i, c.slot_eq i x = false := by
      rw [← enum_array.not_exists_slot_eq, ← enum_array.find_ne_length_iff]
      exact hne
    refine ⟨⟨fun _ => hall, fun _ => hres⟩, fun hex => ?_⟩
    exact absurd ((enum_array.find_ne_length_iff c x).2 hex) hne

theorem find_optional_spec_witness :
    Declared enum_1 ∧
      strings_1.find_optional "Bar" = some ⟨1⟩ ∧
      (strings_1.find_optional "Missing" = none ↔
        ∀ i, strings_1.slot_eq i "Missing" = false) :=
  ⟨by decide, by decide, (find_optional_spec enum_1 (by decide) strings_1 "Missing").1⟩

/-! ## enum_for_each -/

theorem enum_for_each_loop_eq (E : EnumClass) {σ : Type} (fct : σ → Enum E → σ) (m i : Nat)
    (s : σ) (hm : enum_size E - i = m) :
    enum_for_each_loop E fct i s =
      ((List.range' i m).map (fun k : Nat => static_cast_Enum E (k : Int))).foldl fct s := by
  induction m generalizing i s with
  | zero =>
    rw [enum_for_each_loop, if_neg (by omega)]
    rfl
  | succ k ih =>
    rw [enum_for_each_loop, if_pos (by omega), ih (i + 1) _ (by omega)]
    rfl

theorem map_static_cast_range (E : EnumClass) (hE : Declared E) :
    (List.range' 0 (enum_size E)).map (fun k : Nat => static_cast_Enum E (k : Int)) =
      variants E := by
  rw [enum_size_of_declared hE, variants, List.range_eq_range']
  apply List.map_congr_left
  intro k hk
  rw [List.mem_range'_1] at hk
  exact static_cast_Enum_of_lt E (lt_of_lt_of_le (by omega) hE.2.1)

theorem foldl_record_call {E : EnumClass} (l acc : List (Enum E)) :
    l.foldl record_call acc = acc ++ l := by
  induction l generalizing acc with
  | nil => simp
  | cons a rest ih => simp [List.foldl_cons, ih, record_call]

theorem variants_length (E : EnumClass) : (variants E).length = E.enumerators.length := by
  simp [variants]

theorem variants_getElem? (E : EnumClass) (i : Nat) (hi : i < E.enumerators.length) :
    (variants E)[i]? = some ⟨i⟩ := by
  simp [variants, List.getElem?_map, List.getElem?_range hi]

/-- C7: for a declared enum `E` with `n` variants and every action `fct`, `enum_for_each<E>`
invokes `fct` on the variants with indices `0, 1, ..., n-1` in that order and on nothing else:
the final state is the fold of `fct` over that sequence, the log of the calls is that sequence,
it has `n` entries, and entry `i` is the variant with index `i`, `static_cast<E>(i)`, which is
what `enum_value(i)` returns wherever that call builds. -/
theorem enum_for_each_calls (E : EnumClass) (hE : Declared E) {σ : Type}
    (fct : σ → Enum E → σ) (s : σ) :
    enum_for_each E fct s = (variants E).foldl fct s ∧
    enum_for_each E record_call [] = variants E ∧
    (enum_for_each E record_call []).length = E.enumerators.length ∧
    ∀ i, i < E.enumerators.length →
      ∃ v, (enum_for_each E record_call [])[i]? = some v ∧ enum_index v = i ∧
        v = static_cast_Enum E i ∧
        ∀ to_string : Nat → String, enum_value (some to_string) E i = .built (.ok v) := by
  have hgen : ∀ {τ : Type} (g : τ → Enum E → τ) (t : τ),
      enum_for_each E g t = (variants E).foldl g t := by
    intro τ g t
    rw [enum_for_each, enum_for_each_loop_eq E g (enum_size E) 0 t (by omega),
      map_static_cast_range E hE]
  have hlog : enum_for_each E record_call [] = variants E := by
    rw [hgen, foldl_record_call, List.nil_append]
  refine ⟨hgen fct s, hlog, ?_, ?_⟩
  · rw [hlog, variants_length]
  · intro i hi
    have hcast := static_cast_Enum_of_lt E (lt_of_lt_of_le hi hE.2.1)
    refine ⟨⟨i⟩, ?_, rfl, hcast.symm, fun to_string => ?_⟩
    · rw [hlog, variants_getElem? E i hi]
    · rw [enum_value_built,
        enum_value_body_ok_of_lt to_string (by rw [enum_size_of_declared hE]; exact hi), hcast]

theorem enum_for_each_calls_witness :
    Declared enum_ns ∧
      enum_for_each enum_ns record_call [] = [⟨0⟩, ⟨1⟩, ⟨2⟩] ∧
      enum_for_each enum_ns record_call [] = variants enum_ns ∧
      (enum_for_each enum_ns record_call []).length = enum_ns.enumerators.length :=
  ⟨by decide, (enum_for_each_calls enum_ns (by decide) record_call []).2.1.trans (by decide),
    (enum_for_each_calls enum_ns (by decide) record_call []).2.1,
    (enum_for_each_calls enum_ns (by decide) record_call []).2.2.1⟩

/-! ## enum_member -/

theorem to_size_t_of_lt {i : Nat} (h : i < 18446744073709551616) : to_size_t (i : Int) = i := by
  unfold to_size_t
  omega

theorem to_size_t_of_nonneg {i : Int} (h0 : 0 ≤ i) (hi : is_int i) :
    to_size_t i = i.toNat := by
  unfold is_int at hi
  unfold to_size_t
  omega

theorem to_size_t_of_neg {i : Int} (h0 : i < 0) (hi : is_int i) :
    18446744071562067968 ≤ to_size_t i := by
  unfold is_int at hi
  unfold to_size_t
  omega

theorem std_array.at_assign_of_lt {T : Type} {N : Nat} (a : std_array T N) {n : Nat}
    (value : T) (h : n < N) :
    a.at_assign n value =
      (.ok (), ⟨a.elems.set n value, by rw [List.length_set]; exact a.size_eq⟩) := by
  unfold std_array.at_assign
  rw [if_pos h]

theorem std_array.at_assign_of_ge {T : Type} {N : Nat} (a : std_array T N) {n : Nat}
    (value : T) (h : N ≤ n) :
    a.at_assign n value = (.error (.out_of_range array_at_what), a) := by
  unfold std_array.at_assign
  rw [if_neg (by omega)]

theorem enum_member.ctor_loop_spec (E : EnumClass) (hE : Declared E) (m i : Nat)
    (data : std_array (Enum E) (enum_size E)) (hm : enum_size E - i = m) :
    ∃ r, enum_member.ctor_loop E i data = .ok r ∧
      ∀ j, (j < i → r.elems[j]? = data.elems[j]?) ∧
        (i ≤ j → j < enum_size E → r.elems[j]? = some ⟨j⟩) := by
  induction m generalizing i data with
  | zero =>
    refine ⟨data, ?_, fun j => ⟨fun _ => rfl, fun h1 h2 => ?_⟩⟩
    · rw [enum_member.ctor_loop, if_neg (by omega)]
    · omega
  | succ k ih =>
    have hlt : i < enum_size E := by omega
    have h256 := enum_size_le_of_declared hE
    have hidx : to_size_t (i : Int) = i := to_size_t_of_lt (by omega)
    have hcast : static_cast_Enum E (i : Int) = ⟨i⟩ := static_cast_Enum_of_lt E (by omega)
    obtain ⟨r, hr, hspec⟩ :=
      ih (i + 1) ⟨data.elems.set i ⟨i⟩, by rw [List.length_set]; exact data.size_eq⟩ (by omega)
    refine ⟨r, ?_, fun j => ⟨fun hj => ?_, fun h1 h2 => ?_⟩⟩
    · rw [enum_member.ctor_loop, if_pos hlt, hidx, hcast, std_array.at_assign_of_lt data _ hlt]
      exact hr
    · rw [(hspec j).1 (by omega)]
      exact List.getElem?_set_ne (by omega)
    · rcases Nat.eq_or_lt_of_le h1 with heq | hgt
      · subst heq
        rw [(hspec i).1 (by omega)]
        exact List.getElem?_set_self (by rw [data.size_eq]; exact hlt)
      · exact (hspec j).2 (by omega) h2

theorem variants_nodup (E : EnumClass) : (variants E).Nodup := by
  unfold variants
  refine List.Nodup.map ?_ (List.nodup_range _)
  intro a b hab
  exact congrArg Enum.raw hab

theorem mem_variants {E : EnumClass} (v : Enum E) : v ∈ variants E ↔ is_variant v := by
  unfold variants is_variant
  rw [List.mem_map]
  constructor
  · rintro ⟨i, hi, rfl⟩
    exact List.mem_range.1 hi
  · intro h
    exact ⟨v.raw, List.mem_range.2 h, rfl⟩

theorem variants_map_index (E : EnumClass) :
    (variants E).map enum_index = List.range E.enumerators.length := by
  unfold variants
  rw [List.map_map]
  exact List.map_id _

/-- C8: for a declared enum `E` with `n` variants, the constructor of `enum_member<E>`
succeeds whatever the array held before; the constructed object has size `n`, and iterating it
from `begin()` to `end()` yields `n` values, every variant of `E` exactly once, in ascending
index order `0, 1, ..., n-1`. -/
theorem enum_member_iterate (E : EnumClass) (hE : Declared E)
    (init : std_array (Enum E) (enum_size E)) :
    ∃ m, enum_member.ctor E init = .ok m ∧
      m.size = E.enumerators.length ∧
      m.iterate.length = E.enumerators.length ∧
      m.iterate = variants E ∧
      m.iterate.map enum_index = List.range E.enumerators.length ∧
      ∀ v : Enum E, is_variant v → m.iterate.count v = 1 := by
  obtain ⟨r, hr, hspec⟩ := enum_member.ctor_loop_spec E hE (enum_size E) 0 init (by omega)
  have hn := enum_size_of_declared hE
  have hiter : r.elems = variants E := by
    apply List.ext_getElem?
    intro j
    by_cases hj : j < enum_size E
    · rw [(hspec j).2 (by omega) hj, variants_getElem? E j (by omega)]
    · rw [List.getElem?_eq_none (by rw [r.size_eq]; omega),
        List.getElem?_eq_none (by rw [variants_length]; omega)]
  refine ⟨⟨r⟩, ?_, hn, ?_, hiter, ?_, fun v hv => ?_⟩
  · unfold enum_member.ctor
    rw [hr]
  · show r.elems.length = _
    rw [r.size_eq, hn]
  · show r.elems.map enum_index = _
    rw [hiter, variants_map_index]
  · show r.elems.count v = 1
    rw [hiter]
    exact List.count_eq_one_of_mem (variants_nodup E) ((mem_variants v).2 hv)

theorem enum_member_iterate_witness :
    Declared enum_2 ∧
      ∃ m, enum_member.ctor enum_2 ⟨[⟨7⟩, ⟨7⟩, ⟨7⟩], by decide⟩ = .ok m ∧
        m.size = 3 ∧ m.iterate.length = 3 ∧ m.iterate = [⟨0⟩, ⟨1⟩, ⟨2⟩] ∧
        m.iterate.map enum_index = [0, 1, 2] := by
  refine ⟨by decide, ?_⟩
  obtain ⟨m, h1, h2, h3, h4, h5, -⟩ :=
    enum_member_iterate enum_2 (by decide) ⟨[⟨7⟩, ⟨7⟩, ⟨7⟩], by decide⟩
  exact ⟨m, h1, h2, h3, h4.trans (by decide), h5.trans (by decide)⟩

/-! ## Checked access to an enum_array -/

theorem std_array.at_read_of_lt {T : Type} {N : Nat} (a : std_array T N) {n : Nat}
    (h : n < N) : ∃ y, a.elems[n]? = some y ∧ a.at_read n = .ok y := by
  have hlen : n < a.elems.length := by rw [a.size_eq]; exact h
  refine ⟨a.elems[n], List.getElem?_eq_getElem hlen, ?_⟩
  unfold std_array.at_read
  rw [dif_pos h, List.get_eq_getElem]

theorem std_array.at_read_of_ge {T : Type} {N : Nat} (a : std_array T N) {n : Nat}
    (h : N ≤ n) : a.at_read n = .error (.out_of_range array_at_what) := by
  unfold std_array.at_read
  rw [dif_neg (by omega)]

/-- An `int` index reaches `std::array::at` below the size exactly when it is in `[0, n)`. -/
theorem to_size_t_lt_iff {N : Nat} (hN : N ≤ 256) {i : Int} (hi : is_int i) :
    to_size_t i < N ↔ (0 ≤ i ∧ i < (N : Int)) := by
  rcases lt_or_le i 0 with hneg | hpos
  · have := to_size_t_of_neg hneg hi
    omega
  · rw [to_size_t_of_nonneg hpos hi]
    omega

/-- C9: for an `enum_array` `c` over a declared enum with `n` variants and an `int` index `i`,
`c.at(i)` throws `std::out_of_range` if and only if `i < 0` or `i >= n`, and otherwise returns
the value stored in slot `i`; for a variant `e`, `c.at(e)` returns the value stored in slot
`enum_index(e)`. -/
theorem at_bounds (E : EnumClass) (hE : Declared E) {T : Type} (c : enum_array E T) (i : Int)
    (hi : is_int i) :
    ((∃ what, c.at_index i = .error (.out_of_range what)) ↔
      (i < 0 ∨ (E.enumerators.length : Int) ≤ i)) ∧
    (0 ≤ i → i < (E.enumerators.length : Int) →
      ∃ y, c.slot i.toNat = some y ∧ c.at_index i = .ok y) ∧
    (∀ e : Enum E, is_variant e →
      ∃ y, c.slot (enum_index e) = some y ∧ c.at_enum e = .ok y) := by
  have hn := enum_size_of_declared hE
  have hiff := to_size_t_lt_iff (enum_size_le_of_declared hE) hi
  rw [hn] at hiff
  have hin : 0 ≤ i → i < (E.enumerators.length : Int) →
      ∃ y, c.slot i.toNat = some y ∧ c.at_index i = .ok y := by
    intro h0 h1
    have hlt : to_size_t i < enum_size E := by rw [hn]; exact hiff.2 ⟨h0, h1⟩
    obtain ⟨y, hy, hread⟩ := c._data.at_read_of_lt hlt
    rw [to_size_t_of_nonneg h0 hi] at hy
    exact ⟨y, hy, hread⟩
  refine ⟨⟨?_, ?_⟩, hin, ?_⟩
  · rintro ⟨what, herr⟩
    by_contra hcon
    obtain ⟨y, -, hread⟩ := hin (by omega) (by omega)
    rw [hread] at herr
    cases herr
  · intro hout
    have hge : enum_size E ≤ to_size_t i := by
      rw [hn]
      by_contra hlt
      have := hiff.1 (by omega)
      omega
    exact ⟨array_at_what, c._data.at_read_of_ge hge⟩
  · intro e he
    have hlt : enum_index e < enum_size E := by rw [hn]; exact he
    exact c._data.at_read_of_lt hlt

theorem at_bounds_witness :
    Declared enum_1 ∧ is_int 2 ∧
      ((∃ what, strings_1.at_index 2 = .error (.out_of_range what)) ↔
        ((2 : Int) < 0 ∨ (enum_1.enumerators.length : Int) ≤ 2)) ∧
      strings_1.at_index 1 = .ok "Bar" ∧
      strings_1.at_index (-1) = .error (.out_of_range array_at_what) ∧
      ∃ y, strings_1.slot (enum_index (⟨1⟩ : Enum enum_1)) = some y ∧
        strings_1.at_enum ⟨1⟩ = .ok y :=
  ⟨by decide, by decide, (at_bounds enum_1 (by decide) strings_1 2 (by decide)).1, rfl, rfl,
    (at_bounds enum_1 (by decide) strings_1 2 (by decide)).2.2 ⟨1⟩ (by decide)⟩

/-- C10: for an `enum_array` `c` over a declared enum with `n` variants, an `int` index `i` and
a value `x`, `c.set_value(i, x)` throws `std::out_of_range` if and only if `i < 0` or `i >= n`,
and when it throws the container is what it was before: every slot is unchanged. -/
theorem set_value_bounds (E : EnumClass) (hE : Declared E) {T : Type} (c : enum_array E T)
    (i : Int) (hi : is_int i) (x : T) :
    ((∃ what, (c.set_value_index i x).1 = .error (.out_of_range what)) ↔
      (i < 0 ∨ (E.enumerators.length : Int) ≤ i)) ∧
    (∀ ex, (c.set_value_index i x).1 = .error ex →
      (c.set_value_index i x).2 = c ∧ ∀ j, (c.set_value_index i x).2.slot j = c.slot j) := by
  have hn := enum_size_of_declared hE
  have hiff := to_size_t_lt_iff (enum_size_le_of_declared hE) hi
  by_cases hlt : to_size_t i < enum_size E
  · have hset := c._data.at_assign_of_lt x hlt
    have hok : (c.set_value_index i x).1 = .ok () := by
      simp only [enum_array.set_value_index, hset]
    have hrange := hiff.1 hlt
    rw [hn] at hrange
    refine ⟨⟨?_, fun hout => ?_⟩, fun ex herr => ?_⟩
    · rintro ⟨what, herr⟩
      rw [hok] at herr
      cases herr
    · omega
    · rw [hok] at herr
      cases herr
  · have hset := c._data.at_assign_of_ge x (Nat.le_of_not_lt hlt)
    have herr : (c.set_value_index i x).1 = .error (.out_of_range array_at_what) := by
      simp only [enum_array.set_value_index, hset]
    have hsame : (c.set_value_index i x).2 = c := by
      simp only [enum_array.set_value_index, hset]
    refine ⟨⟨fun _ => ?_, fun _ => ⟨array_at_what, herr⟩⟩, fun ex _ => ⟨hsame, fun j => ?_⟩⟩
    · by_contra hcon
      apply hlt
      apply hiff.2
      rw [hn]
      omega
    · rw [hsame]

theorem set_value_bounds_witness :
    Declared enum_1 ∧ is_int (-1) ∧
      ((∃ what, (strings_1.set_value_index (-1) "Baz").1 = .error (.out_of_range what)) ↔
        ((-1 : Int) < 0 ∨ (enum_1.enumerators.length : Int) ≤ -1)) ∧
      (strings_1.set_value_index (-1) "Baz").2.iterate = ["Foo", "Bar"] ∧
      (strings_1.set_value_index 2 "Baz").2.iterate = ["Foo", "Bar"] ∧
      (strings_1.set_value_index 1 "Baz").2.iterate = ["Foo", "Baz"] :=
  ⟨by decide, by decide,
    (set_value_bounds enum_1 (by decide) strings_1 (-1) (by decide) "Baz").1,
    by decide, by decide, by decide⟩

/-! ## Construction of an enum_array -/

theorem std_array.aggregate_full {T : Type} [Inhabited T] (N : Nat) (list : List T)
    (h : list.length ≤ N) (hfull : list.length = N) :
    (std_array.aggregate N list h).elems = list := by
  simp only [std_array.aggregate, hfull, Nat.sub_self, List.replicate_zero, List.append_nil]

theorem enum_array.ctor_list_static_assert_iff_size (E : EnumClass) (k : Nat) :
    enum_array.ctor_list_static_assert E k = true ↔ (k = enum_size E ∨ k = 0) := by
  simp only [enum_array.ctor_list_static_assert, Bool.or_eq_true, beq_iff_eq]
  constructor
  · rintro (h | h)
    · exact Or.inl h.symm
    · exact Or.inr h
  · rintro (h | h)
    · exact Or.inl h.symm
    · exact Or.inr h

/-- C11: for a declared enum `E` with `n` variants and a list `xs` of exactly `n` values, the
constructor `enum_array(Args ... list)` is accepted, the constructed container has slot `i`
equal to `xs[i]` for every `i < n` (also through the checked accessor), and iterating it from
`begin()` to `end()` yields exactly `xs` in order. -/
theorem ctor_list_slots (E : EnumClass) (hE : Declared E) {T : Type} [Inhabited T]
    (xs : List T) (hlen : xs.length = E.enumerators.length) :
    ∃ h : enum_array.ctor_list_static_assert E xs.length = true,
      (enum_array.ctor_list E xs h).iterate = xs ∧
      (∀ i, (enum_array.ctor_list E xs h).slot i = xs[i]?) ∧
      ∀ i, i < E.enumerators.length →
        ∃ y, xs[i]? = some y ∧ (enum_array.ctor_list E xs h).at_enum ⟨i⟩ = .ok y := by
  have hn := enum_size_of_declared hE
  have h : enum_array.ctor_list_static_assert E xs.length = true :=
    (enum_array.ctor_list_static_assert_iff_size E xs.length).2 (Or.inl (by omega))
  have helems : (enum_array.ctor_list E xs h)._data.elems = xs :=
    std_array.aggregate_full (enum_size E) xs (by omega) (by omega)
  refine ⟨h, helems, fun i => ?_, fun i hi => ?_⟩
  · simp only [enum_array.slot, helems]
  · obtain ⟨y, hy, hread⟩ :=
      (enum_array.ctor_list E xs h)._data.at_read_of_lt (n := i) (by omega)
    rw [helems] at hy
    exact ⟨y, hy, hread⟩

theorem ctor_list_slots_witness :
    Declared enum_1 ∧
      ∃ h : enum_array.ctor_list_static_assert enum_1 ["Foo", "Bar"].length = true,
        (enum_array.ctor_list enum_1 ["Foo", "Bar"] h).iterate = ["Foo", "Bar"] := by
  refine ⟨by decide, ?_⟩
  obtain ⟨h, hiter, -⟩ := ctor_list_slots enum_1 (by decide) ["Foo", "Bar"] (by decide)
  exact ⟨h, hiter⟩

/-- C13: for a declared enum `E` with `n` variants and a value `d`, the container constructed by
`enum_array(value_type default_value)` holds `d` in every slot: iteration yields `n` times `d`,
and `at(i)` returns `d` for every `0 <= i < n`. -/
theorem ctor_fill_slots (E : EnumClass) (hE : Declared E) {T : Type}
    (init : std_array T (enum_size E)) (d : T) :
    (enum_array.ctor_fill E init d).iterate = List.replicate E.enumerators.length d ∧
    ∀ i : Int, is_int i → 0 ≤ i → i < (E.enumerators.length : Int) →
      (enum_array.ctor_fill E init d).at_index i = .ok d := by
  have hn := enum_size_of_declared hE
  have helems : (enum_array.ctor_fill E init d)._data.elems =
      List.replicate E.enumerators.length d := by
    show init.elems.map (fun _ => d) = _
    rw [List.map_const', init.size_eq, hn]
  refine ⟨helems, fun i hi h0 h1 => ?_⟩
  have hlt : to_size_t i < enum_size E :=
    (to_size_t_lt_iff (enum_size_le_of_declared hE) hi).2 ⟨h0, by rw [hn]; exact h1⟩
  obtain ⟨y, hy, hread⟩ := (enum_array.ctor_fill E init d)._data.at_read_of_lt hlt
  rw [helems, List.getElem?_replicate] at hy
  split at hy
  · cases hy
    exact hread
  · cases hy

theorem ctor_fill_slots_witness :
    Declared enum_2 ∧ is_int 2 ∧
      (enum_array.ctor_fill enum_2 ⟨["a", "b", "c"], by decide⟩ "x").iterate =
        ["x", "x", "x"] ∧
      (enum_array.ctor_fill enum_2 ⟨["a", "b", "c"], by decide⟩ "x").at_index 2 = .ok "x" :=
  ⟨by decide, by decide,
    (ctor_fill_slots enum_2 (by decide) ⟨["a", "b", "c"], by decide⟩ "x").1.trans (by decide),
    (ctor_fill_slots enum_2 (by decide) ⟨["a", "b", "c"], by decide⟩ "x").2 2
      (by decide) (by decide) (by decide)⟩

/-! ## Size and membership traits -/

theorem BOOST_PP_VARIADIC_SIZE_of_ne_nil (args : List String) (h : args ≠ []) :
    BOOST_PP_VARIADIC_SIZE args = args.length := by
  cases args with
  | nil => exact absurd rfl h
  | cons a rest => rfl

/-- C15: for an enum declared with `DEF_ENUM(name, v_0, ..., v_{n-1})` (at least one variant),
`enum_size<name>::value` equals `n`, the number of declared variants, and `size()` of every
`enum_array<name, T>` and of every `enum_member<name>` is the same `n`. -/
theorem enum_size_eq_count (name : String) (args : List String) (h : args ≠ []) :
    enum_size (DEF_ENUM name args) = args.length ∧
    (∀ (T : Type) (c : enum_array (DEF_ENUM name args) T),
      c.size = args.length ∧ c.iterate.length = args.length) ∧
    (∀ m : enum_member (DEF_ENUM name args),
      m.size = args.length ∧ m.iterate.length = args.length) := by
  have hsize : enum_size (DEF_ENUM name args) = args.length :=
    BOOST_PP_VARIADIC_SIZE_of_ne_nil args h
  refine ⟨hsize, fun T c => ⟨hsize, ?_⟩, fun m => ⟨hsize, ?_⟩⟩
  · exact c._data.size_eq.trans hsize
  · exact m._data.size_eq.trans hsize

theorem enum_size_eq_count_witness :
    enum_size enum_1 = 2 ∧ enum_size enum_2 = 3 ∧ enum_size enum_ns = 3 ∧
      strings_1.size = 2 :=
  ⟨(enum_size_eq_count "enum_1" ["foo", "bar"] (by decide)).1,
    (enum_size_eq_count "enum_2" ["foo", "bar", "baz"] (by decide)).1,
    (enum_size_eq_count "ns::enum_ns" ["foo", "bar", "baz"] (by decide)).1,
    ((enum_size_eq_count "enum_1" ["foo", "bar"] (by decide)).2.1 String strings_1).1⟩

/-- C17: for a declared enum `E` with `n` variants, `enum_index` (a total function) maps the
variants injectively onto exactly `0, 1, ..., n-1`: every variant has an index below
`enum_size<E>::value`, different values have different indices, every `i < n` is the index of a
variant, the variants in order have the indices `0, 1, ..., n-1`, and the `i`-th declared
enumerator (of pairwise different names) has index `i`. -/
theorem enum_index_range (E : EnumClass) (hE : Declared E) :
    (∀ v : Enum E, is_variant v → enum_index v < enum_size E) ∧
    (∀ v w : Enum E, enum_index v = enum_index w → v = w) ∧
    (∀ i, i < E.enumerators.length → ∃ v : Enum E, is_variant v ∧ enum_index v = i) ∧
    (∀ v : Enum E, is_variant v ↔ enum_index v < E.enumerators.length) ∧
    (variants E).map enum_index = List.range E.enumerators.length ∧
    (E.enumerators.Nodup → ∀ i (hi : i < E.enumerators.length),
      ∃ v, enumerator E (E.enumerators.get ⟨i, hi⟩) = some v ∧ is_variant v ∧
        enum_index v = i) := by
  have hn := enum_size_of_declared hE
  refine ⟨fun v hv => ?_, fun v w h => ?_, fun i hi => ⟨⟨i⟩, hi, rfl⟩, fun v => Iff.rfl,
    variants_map_index E, fun hnd i hi => ?_⟩
  · rw [hn]
    exact hv
  · cases v
    cases w
    simp only [enum_index] at h
    rw [h]
  · have hmem : E.enumerators.get ⟨i, hi⟩ ∈ E.enumerators := List.get_mem _ _ _
    have hidx : E.enumerators.indexOf (E.enumerators.get ⟨i, hi⟩) = i := by
      rw [List.get_eq_getElem]
      exact List.indexOf_getElem hnd i hi
    refine ⟨⟨i⟩, ?_, hi, rfl⟩
    unfold enumerator
    rw [if_pos hmem, hidx]

theorem enum_index_range_witness :
    Declared enum_2 ∧
      (∀ v : Enum enum_2, is_variant v → enum_index v < enum_size enum_2) ∧
      (variants enum_2).map enum_index = [0, 1, 2] ∧
      enumerator enum_2 "baz" = some ⟨2⟩ :=
  ⟨by decide, (enum_index_range enum_2 (by decide)).1,
    (enum_index_range enum_2 (by decide)).2.2.2.2.1.trans (by decide), by decide⟩

/-- C18: the two unconditional `find` overloads have the same found-logic: for every
`enum_array` `c` and query `x` they succeed on the same inputs with the same variant, both throw
`std::invalid_argument` on the same inputs, and their results are equal once the text of the
exception is dropped; the text itself differs (for `strings_1` and `"Missing"`). -/
theorem find_overloads_agree {E : EnumClass} {T : Type} [BEq T] [ToString T]
    (c : enum_array E T) (x : T) :
    (∀ v, c.find_string x = .ok v ↔ c.find_other x = .ok v) ∧
    ((∃ what, c.find_string x = .error (.invalid_argument what)) ↔
      (∃ what, c.find_other x = .error (.invalid_argument what))) ∧
    (c.find_string x).mapError Exception.kind = (c.find_other x).mapError Exception.kind ∧
    ((∃ v, c.find_string x = .ok v ∧ c.find_other x = .ok v) ∨
      (∃ w1 w2, c.find_string x = .error (.invalid_argument w1) ∧
        c.find_other x = .error (.invalid_argument w2))) ∧
    strings_1.find_string "Missing" ≠ strings_1.find_other "Missing" := by
  have hdiff : strings_1.find_string "Missing" ≠ strings_1.find_other "Missing" := by
    have h1 : strings_1.find_string "Missing" =
        .error (.invalid_argument "Value \"Missing\" not found for enum enum_1") := rfl
    have h2 : strings_1.find_other "Missing" =
        .error (.invalid_argument "Value not found for enum enum_1") := rfl
    rw [h1, h2]
    intro h
    injection h with h
    injection h with h
    exact absurd h (by decide)
  by_cases hne : std_find c._data.elems x ≠ c._data.elems.length
  · have h1 : c.find_string x = .ok (static_cast_Enum E (std_find c._data.elems x)) := by
      simp only [enum_array.find_string]
      rw [if_pos hne]
    have h2 : c.find_other x = .ok (static_cast_Enum E (std_find c._data.elems x)) := by
      simp only [enum_array.find_other]
      rw [if_pos hne]
    rw [h1, h2]
    refine ⟨fun v => Iff.rfl, ⟨?_, ?_⟩, rfl, Or.inl ⟨_, rfl, rfl⟩, hdiff⟩
    · rintro ⟨w, hw⟩
      cases hw
    · rintro ⟨w, hw⟩
      cases hw
  · have h1 : c.find_string x = .error (.invalid_argument
        ("Value \"" ++ toString x ++ "\" not found for enum " ++ typeid_name E)) := by
      simp only [enum_array.find_string]
      rw [if_neg hne]
    have h2 : c.find_other x =
        .error (.invalid_argument ("Value not found for enum " ++ typeid_name E)) := by
      simp only [enum_array.find_other]
      rw [if_neg hne]
    rw [h1, h2]
    refine ⟨fun v => ⟨?_, ?_⟩, ⟨fun _ => ⟨_, rfl⟩, fun _ => ⟨_, rfl⟩⟩, rfl,
      Or.inr ⟨_, _, rfl, rfl⟩, hdiff⟩
    · intro h
      cases h
    · intro h
      cases h

/-! ## Writing to an enum_array, and reading back -/

theorem std_array.at_read_congr {T : Type} {N : Nat} (a b : std_array T N) (n : Nat)
    (h : a.elems[n]? = b.elems[n]?) : a.at_read n = b.at_read n := by
  by_cases hn : n < N
  · obtain ⟨y, hy, hread⟩ := a.at_read_of_lt hn
    obtain ⟨z, hz, hread'⟩ := b.at_read_of_lt hn
    rw [hy, hz] at h
    cases h
    rw [hread, hread']
  · rw [a.at_read_of_ge (Nat.le_of_not_lt hn), b.at_read_of_ge (Nat.le_of_not_lt hn)]

theorem to_size_t_injective {i j : Int} (hi : is_int i) (hj : is_int j)
    (h : to_size_t i = to_size_t j) : i = j := by
  unfold is_int at hi hj
  unfold to_size_t at h
  omega

/-- C19: for an `enum_array` `c` over a declared enum with `n` variants, an in-range `int`
index `i` and a value `x`: `c.set_value(i, x)` succeeds; afterwards `c.at(i)` is `x`, every other
slot holds the value it held before (and `at(j)` answers as before for every other `int` `j`),
and the length is still `n`; `set_value(e, x)` for a variant `e` has the same effect as
`set_value(enum_index(e), x)`. -/
theorem set_value_frame (E : EnumClass) (hE : Declared E) {T : Type} (c : enum_array E T)
    (i : Int) (hi : is_int i) (h0 : 0 ≤ i) (h1 : i < (E.enumerators.length : Int)) (x : T) :
    (c.set_value_index i x).1 = .ok () ∧
    (c.set_value_index i x).2.at_index i = .ok x ∧
    (∀ j : Nat, j ≠ i.toNat → (c.set_value_index i x).2.slot j = c.slot j) ∧
    (∀ j : Int, is_int j → j ≠ i →
      (c.set_value_index i x).2.at_index j = c.at_index j) ∧
    (c.set_value_index i x).2.size = E.enumerators.length ∧
    (c.set_value_index i x).2.iterate.length = E.enumerators.length ∧
    (∀ e : Enum E, is_variant e → c.set_value_enum e x = c.set_value_index (enum_index e) x) := by
  have hn := enum_size_of_declared hE
  have h256 := enum_size_le_of_declared hE
  have hlt : to_size_t i < enum_size E :=
    (to_size_t_lt_iff h256 hi).2 ⟨h0, by rw [hn]; exact h1⟩
  have hidx : to_size_t i = i.toNat := to_size_t_of_nonneg h0 hi
  have hset := c._data.at_assign_of_lt x hlt
  have helems : (c.set_value_index i x).2._data.elems = c._data.elems.set (to_size_t i) x := by
    simp only [enum_array.set_value_index, hset]
  have hlen : to_size_t i < c._data.elems.length := by rw [c._data.size_eq]; exact hlt
  refine ⟨?_, ?_, fun j hj => ?_, fun j hj hne => ?_, hn, ?_, fun e he => ?_⟩
  · simp only [enum_array.set_value_index, hset]
  · obtain ⟨y, hy, hread⟩ := (c.set_value_index i x).2._data.at_read_of_lt hlt
    rw [helems, List.getElem?_set_self hlen] at hy
    cases hy
    exact hread
  · simp only [enum_array.slot, helems]
    exact List.getElem?_set_ne (by omega)
  · apply std_array.at_read_congr
    rw [helems]
    exact List.getElem?_set_ne (fun h => hne (to_size_t_injective hj hi h.symm))
  · exact (c.set_value_index i x).2._data.size_eq.trans hn
  · have hraw : e.raw < E.enumerators.length := he
    have hcast : to_size_t ((enum_index e : Nat) : Int) = enum_index e :=
      to_size_t_of_lt (by unfold enum_index; omega)
    simp only [enum_array.set_value_enum, enum_array.set_value_index, hcast]

theorem set_value_frame_witness :
    Declared enum_1 ∧ is_int 1 ∧
      (strings_1.set_value_index 1 "Baz").2.at_index 1 = .ok "Baz" ∧
      (strings_1.set_value_index 1 "Baz").2.iterate = ["Foo", "Baz"] ∧
      (strings_1.set_value_index 1 "Baz").2.iterate.length = enum_1.enumerators.length :=
  ⟨by decide, by decide,
    (set_value_frame enum_1 (by decide) strings_1 1 (by decide) (by decide) (by decide)
      "Baz").2.1,
    by decide,
    (set_value_frame enum_1 (by decide) strings_1 1 (by decide) (by decide) (by decide)
      "Baz").2.2.2.2.2.1⟩

/-! ## Search and lookup -/

theorem enum_array.slot_eq_of_slot {E : EnumClass} {T : Type} [BEq T] (c : enum_array E T)
    (i : Nat) (y x : T) (h : c._data.elems[i]? = some y) : c.slot_eq i x = (y == x) := by
  simp only [enum_array.slot_eq, enum_array.slot, h]

/-- A value read from a slot of a container with pairwise distinct, self-equal slot values is
first found in that slot. -/
theorem enum_array.find_slot_value {E : EnumClass} {T : Type} [BEq T] (c : enum_array E T)
    (hdist : c.pairwise_distinct) (hrefl : c.reflexive_eq) (k : Nat) (y : T)
    (hy : c._data.elems[k]? = some y) : std_find c._data.elems y = k := by
  have hk : k < c._data.elems.length := by
    by_contra hge
    rw [List.getElem?_eq_none (by omega)] at hy
    cases hy
  have hyk : c._data.elems[k] = y := by
    rw [List.getElem?_eq_getElem hk] at hy
    exact Option.some.inj hy
  apply enum_array.find_eq_of_first
  · rw [enum_array.slot_eq_of_slot c k y y hy]
    apply hrefl
    rw [← hyk]
    exact List.getElem_mem _
  · intro j hj
    have hjlen : j < c._data.elems.length := by omega
    rw [enum_array.slot_eq_of_slot c j _ y (List.getElem?_eq_getElem hjlen), ← hyk]
    exact (List.pairwise_iff_getElem.1 hdist j k hjlen hk hj).1

/-- C20, as stated, fails: the slot values `{nan, 1}` of `numbers_1` are pairwise distinct,
`at` of the variant with index 0 returns `nan`, and searching for that value finds nothing,
because `nan` does not compare equal to itself. -/
theorem find_at_inverse_counterexample :
    Declared enum_1 ∧ numbers_1.pairwise_distinct ∧ is_variant (⟨0⟩ : Enum enum_1) ∧
      numbers_1.at_enum ⟨0⟩ = .ok Number.nan ∧
      numbers_1.find_other Number.nan =
        .error (.invalid_argument "Value not found for enum enum_1") ∧
      numbers_1.find_optional Number.nan = none := by
  refine ⟨by decide, ?_, by decide, rfl, rfl, rfl⟩
  unfold enum_array.pairwise_distinct
  decide

/-- C20, amended: for an `enum_array` `c` over a declared enum: whenever `c.find(x)` succeeds,
`c.at(c.find(x)) == x`; and when the slot values of `c` are pairwise distinct and each of them
compares equal to itself, then for every variant `e` both `c.find(c.at(e))` return `e` and
`c.find_optional(c.at(e))` holds `e`. -/
theorem find_at_inverse (E : EnumClass) (hE : Declared E) {T : Type} [BEq T] [ToString T]
    (c : enum_array E T) :
    (∀ x v, (c.find_string x = .ok v ∨ c.find_other x = .ok v) →
      ∃ y, c.at_enum v = .ok y ∧ (y == x) = true) ∧
    (c.pairwise_distinct → c.reflexive_eq → ∀ e : Enum E, is_variant e →
      ∃ y, c.at_enum e = .ok y ∧ c.find_string y = .ok e ∧ c.find_other y = .ok e ∧
        c.find_optional y = some e) := by
  have hn := enum_size_of_declared hE
  constructor
  · intro x v hfind
    have hres : std_find c._data.elems x ≠ c._data.elems.length ∧
        v = static_cast_Enum E (std_find c._data.elems x) := by
      by_cases hne : std_find c._data.elems x ≠ c._data.elems.length
      · refine ⟨hne, ?_⟩
        rcases hfind with h | h
        · simp only [enum_array.find_string] at h
          rw [if_pos hne] at h
          exact (Except.ok.inj h).symm
        · simp only [enum_array.find_other] at h
          rw [if_pos hne] at h
          exact (Except.ok.inj h).symm
      · rcases hfind with h | h
        · simp only [enum_array.find_string] at h
          rw [if_neg hne] at h
          cases h
        · simp only [enum_array.find_other] at h
          rw [if_neg hne] at h
          cases h
    obtain ⟨hne, hv⟩ := hres
    obtain ⟨hcast, hvar⟩ := enum_array.find_cast hE c x hne
    rw [hcast] at hv
    subst hv
    have hvar' : std_find c._data.elems x < E.enumerators.length := hvar
    have hlt : std_find c._data.elems x < enum_size E := by omega
    obtain ⟨y, hy, hread⟩ := c._data.at_read_of_lt hlt
    refine ⟨y, hread, ?_⟩
    rw [← enum_array.slot_eq_of_slot c _ y x hy]
    exact enum_array.slot_eq_find c x hne
  · intro hdist hrefl e he
    have hlt : enum_index e < enum_size E := by rw [hn]; exact he
    obtain ⟨y, hy, hread⟩ := c._data.at_read_of_lt hlt
    have hfind : std_find c._data.elems y = e.raw :=
      enum_array.find_slot_value c hdist hrefl e.raw y hy
    have hne : std_find c._data.elems y ≠ c._data.elems.length := by
      rw [hfind, c._data.size_eq]
      exact Nat.ne_of_lt hlt
    have hcast : static_cast_Enum E (std_find c._data.elems y) = e := by
      rw [hfind]
      exact static_cast_Enum_of_lt E (lt_of_lt_of_le hlt (enum_size_le_of_declared hE))
    refine ⟨y, hread, ?_, ?_, ?_⟩
    · simp only [enum_array.find_string]
      rw [if_pos hne, hcast]
    · simp only [enum_array.find_other]
      rw [if_pos hne, hcast]
    · simp only [enum_array.find_optional]
      rw [if_pos hne, hcast]

theorem find_at_inverse_witness :
    Declared enum_1 ∧ strings_1.pairwise_distinct ∧ strings_1.reflexive_eq ∧
      is_variant (⟨1⟩ : Enum enum_1) ∧
      strings_1.at_enum ⟨1⟩ = .ok "Bar" ∧
      strings_1.find_string "Bar" = .ok ⟨1⟩ ∧
      ∃ y, strings_1.at_enum ⟨1⟩ = .ok y ∧ strings_1.find_string y = .ok ⟨1⟩ ∧
        strings_1.find_other y = .ok ⟨1⟩ ∧ strings_1.find_optional y = some ⟨1⟩ := by
  have hdist : strings_1.pairwise_distinct := by
    unfold enum_array.pairwise_distinct
    decide
  have hrefl : strings_1.reflexive_eq := by
    intro y _
    exact beq_self_eq_true y
  exact ⟨by decide, hdist, hrefl, by decide, rfl, rfl,
    (find_at_inverse enum_1 (by decide) strings_1).2 hdist hrefl ⟨1⟩ (by decide)⟩

end EnumTools
